import Mathlib

/-!
Shallow embedding of `src/backtrack_large_window_to_csv.py` (class `MovingAverage`).

Modelling conventions:
* Timestamps are integers (`Int`, seconds since the Unix epoch); the Python code
  manipulates float timestamps, but every cursor the windowed walk visits is an
  integer offset from the current timestamp or a whole-second session boundary,
  and all claims are about whole-second inputs.  Under integer timestamps the
  exact-match tolerance `abs(ts - timestamp) < 0.1` of `_find_price_at_time`
  holds iff the two timestamps are equal; the inequality is kept verbatim as
  `(10 * (ts - t)).natAbs < 1`.
* Prices are rationals (`ℚ`), the standard idealisation of Python floats.
* `datetime.fromtimestamp` (local time) is modelled with a zero UTC offset:
  day index `t / 86400`, seconds-of-day `t % 86400` (Euclidean = floor for the
  positive divisor), weekday `(day + 3) % 7` with Monday = 0 (1970-01-01, day 0,
  is a Thursday = 3), matching Python's `datetime.weekday()`.
* Python's `sorted` is a stable sort; a stable sort is uniquely determined by
  the comparison key, so the structurally recursive `List.insertionSort`
  (which is stable) produces exactly the same list and, unlike `mergeSort`,
  reduces in the kernel.
* The two `while` loops of `GetSMA` are modelled as fuel-indexed recursion
  returning `Option`; `none` means "fuel exhausted".  `GetSMA` supplies fuel
  `(start + 1).toNat + 1`, which theorem `walk_fuel_sufficient` below proves is
  always enough, so the `Option` never actually is `none`.
-/

/-- Seconds-of-day of a timestamp, `t % 86400 ∈ [0, 86400)`; models the
time-of-day fields of `datetime.fromtimestamp(t)`. -/
def secondsOfDay (t : Int) : Int := t % 86400

/-- Day index of a timestamp (days since 1970-01-01), `t / 86400` with floor
division; models the date of `datetime.fromtimestamp(t)`. -/
def dayIndex (t : Int) : Int := t / 86400

/-- Python `datetime.weekday()` of a day index: Monday = 0 .. Sunday = 6.
Day 0 (1970-01-01) is a Thursday, hence the offset 3. -/
def weekdayOfDay (d : Int) : Int := (d + 3) % 7

/-- Python `dt.hour` of a timestamp. -/
def hourOfDay (t : Int) : Int := secondsOfDay t / 3600

/-- Timestamp of local midnight of the day containing `t`. -/
def dayStart (t : Int) : Int := dayIndex t * 86400

/- Session boundaries as seconds-of-day:
09:30:00 = 34200, 11:30:00 = 41400, 13:00:00 = 46800, 15:00:00 = 54000. -/

/-- `MovingAverage.is_trading_time`: False on Saturday/Sunday, otherwise true
iff the local time-of-day is in `[09:30:00, 11:30:00]` or `[13:00:00, 15:00:00]`
(both bounds inclusive, matching `morning_start <= dt <= morning_end` etc.). -/
def is_trading_time (t : Int) : Bool :=
  if 5 ≤ weekdayOfDay (dayIndex t) then false
  else
    decide ((34200 ≤ secondsOfDay t ∧ secondsOfDay t ≤ 41400) ∨
            (46800 ≤ secondsOfDay t ∧ secondsOfDay t ≤ 54000))

/-- The `while prev_day.weekday() >= 5: prev_day -= timedelta(days=1)` loop of
`GetSMA`, unrolled: the loop body runs at most twice (there are at most two
consecutive weekend days), decrementing once from a Saturday and twice from a
Sunday. -/
def skipWeekendsBack (d : Int) : Int :=
  if weekdayOfDay d = 6 then d - 2
  else if weekdayOfDay d = 5 then d - 1
  else d

/-- Timestamp of `15:00:00` on the previous trading day (weekends skipped) of
the day with index `d`; models lines 244-255 / 314-326 of the source. -/
def prevTradingDayClose (d : Int) : Int :=
  skipWeekendsBack (d - 1) * 86400 + 54000

/-- The skip-ahead jump of the primary backward walk (source lines 224-265),
applied to the post-decrement cursor `t`, already assuming `t` is known to be
non-trading and `t > 0`: midday-break region (`11 <= hour < 13`) jumps to that
day's `11:30:00`; `hour < 9` or `hour >= 15` jumps to the previous trading
day's `15:00:00`; the jump is taken only if the target is strictly smaller. -/
def jumpPrimary (t : Int) : Int :=
  let h := hourOfDay t
  if 11 ≤ h ∧ h < 13 then
    let j := dayStart t + 41400
    if j < t then j else t
  else if h < 9 ∨ 15 ≤ h then
    let j := prevTradingDayClose (dayIndex t)
    if j < t then j else t
  else t

/-- The skip-ahead jump of the afternoon-continuation walk (source lines
304-336): it has only the overnight branch (`hour < 9` or `hour >= 15`);
there is no midday-break branch. -/
def jumpCont (t : Int) : Int :=
  let h := hourOfDay t
  if h < 9 ∨ 15 ≤ h then
    let j := prevTradingDayClose (dayIndex t)
    if j < t then j else t
  else t

/-- First pass of `_find_price_at_time`: scan `self.data` in insertion order
for a sample whose timestamp is within `0.1` of `t` (for integer timestamps:
equal to `t`) and return its price. -/
def exactMatch (t : Int) : List (Int × ℚ) → Option ℚ
  | [] => none
  | (ts, price) :: rest =>
      if (10 * (ts - t)).natAbs < 1 then some price else exactMatch t rest

/-- Second pass of `_find_price_at_time`: walk the sorted data keeping the
price of the last sample with timestamp `≤ t` (`break` on the first larger
timestamp). -/
def scanPrev (t : Int) : List (Int × ℚ) → Option ℚ → Option ℚ
  | [], acc => acc
  | (ts, price) :: rest, acc =>
      if t < ts then acc else scanPrev t rest (some price)

/-- Python `sorted(data, key=lambda x: x[0])` (stable, key = timestamp),
as used by `Update`. -/
def sortedByTs (data : List (Int × ℚ)) : List (Int × ℚ) :=
  data.insertionSort (fun a b => a.1 ≤ b.1)

/-- Python `sorted(data)` (lexicographic on the `(timestamp, price)` tuple),
as used by `_find_price_at_time`. -/
def sortedLex (data : List (Int × ℚ)) : List (Int × ℚ) :=
  data.insertionSort (fun a b => a.1 < b.1 ∨ (a.1 = b.1 ∧ a.2 ≤ b.2))

/-- `MovingAverage._find_price_at_time(timestamp, default_price)`:
empty series ⇒ `default_price`; exact match ⇒ that price; `t` before the
earliest sample ⇒ `0`; otherwise forward-fill from the last sample `≤ t`
(the final `return 0.0` is unreachable past the early return but kept). -/
def find_price_at_time (data : List (Int × ℚ)) (timestamp : Int)
    (default_price : ℚ) : ℚ :=
  if data = [] then default_price
  else
    match exactMatch timestamp data with
    | some p => p
    | none =>
        let sorted := sortedLex data
        if sorted ≠ [] ∧ timestamp < (sorted.headD (0, 0)).1 then 0
        else
          match scanPrev timestamp sorted none with
          | some p => p
          | none => 0

/-- Primary backward walk of `GetSMA` (source lines 192-265).  State:
cursor `c`, accumulators `total` (sum of prices) and `cnt` (valid points).
Loop condition `check_time >= window_start and check_time >= 0`; body counts
the cursor instant if it is a trading instant with resolved price `> 0`;
then the cursor is decremented and, if now non-trading and positive, the
skip-ahead jump is applied.  Fuel-indexed; `none` = fuel ran out. -/
def walk1Aux (data : List (Int × ℚ)) (cp : ℚ) (windowStart : Int) :
    Nat → Int → ℚ → Nat → Option (ℚ × Nat)
  | 0, _, _, _ => none
  | fuel + 1, c, total, cnt =>
      if windowStart ≤ c ∧ 0 ≤ c then
        let p := find_price_at_time data c cp
        let total' := if is_trading_time c ∧ 0 < p then total + p else total
        let cnt' := if is_trading_time c ∧ 0 < p then cnt + 1 else cnt
        let c1 := c - 1
        let c2 := if ¬ is_trading_time c1 ∧ 0 < c1 then jumpPrimary c1 else c1
        walk1Aux data cp windowStart fuel c2 total' cnt'
      else some (total, cnt)

/-- Afternoon-continuation backward walk of `GetSMA` (source lines 269-336).
Loop condition `check_time >= 0 and remaining_seconds > 0`; `remaining` is
decremented on every *trading* instant visited (whether or not its price
counts); the jump is `jumpCont` (overnight branch only). -/
def walk2Aux (data : List (Int × ℚ)) (cp : ℚ) :
    Nat → Int → Int → ℚ → Nat → Option (ℚ × Nat)
  | 0, _, _, _, _ => none
  | fuel + 1, c, remaining, total, cnt =>
      if 0 ≤ c ∧ 0 < remaining then
        let p := find_price_at_time data c cp
        let total' := if is_trading_time c ∧ 0 < p then total + p else total
        let cnt' := if is_trading_time c ∧ 0 < p then cnt + 1 else cnt
        let remaining' := if is_trading_time c then remaining - 1 else remaining
        let c1 := c - 1
        let c2 := if ¬ is_trading_time c1 ∧ 0 < c1 then jumpCont c1 else c1
        walk2Aux data cp fuel c2 remaining' total' cnt'
      else some (total, cnt)

/-- State of the Python `MovingAverage` object: `num_bin` (capacity),
`window` (seconds), `data` (stored `(timestamp, value)` samples, insertion
order), `current_timestamp` (`None` before the first `Update`). -/
structure MovingAverage where
  num_bin : Nat
  window : Int
  data : List (Int × ℚ)
  current_timestamp : Option Int

/-- `MovingAverage.__init__(num_bin, window)`. -/
def MovingAverage.init (num_bin : Nat) (window : Int) : MovingAverage :=
  { num_bin := num_bin, window := window, data := [], current_timestamp := none }

/-- `MovingAverage.Update(timestamp, value)`: set `current_timestamp`, append
the sample, and if `len(data) > num_bin` downsample: sort by timestamp (stable),
split at `int(n*0.2)` and `int(n*0.5)` (for the float constants these truncate
to `n/5` and `n/2` exactly), keep `max(1, int(num_bin*0.1))` early points,
`max(1, int(num_bin*0.3))` middle points and `num_bin - early - mid` recent
points (a Python `int` that can be negative, giving an empty `range`), each by
evenly spaced indices `i * len(part) // keep`; finally, if the latest sample
dropped out, overwrite the last element of the result with it.
`List.getD` carries the junk default `(0, 0)`; every index used is in range. -/
def MovingAverage.Update (ma : MovingAverage) (timestamp : Int) (value : ℚ) :
    MovingAverage :=
  let data1 := ma.data ++ [(timestamp, value)]
  if data1.length > ma.num_bin then
    let n := data1.length
    let sorted := sortedByTs data1
    let early_end := n / 5
    let mid_end := n / 2
    let early_keep := max 1 (ma.num_bin / 10)
    let mid_keep := max 1 (ma.num_bin * 3 / 10)
    let recent_keep : Int := (ma.num_bin : Int) - early_keep - mid_keep
    let early_data := sorted.take early_end
    let early_sampled :=
      if early_data = [] then []
      else (List.range early_keep).map
        (fun i => early_data.getD (i * early_data.length / early_keep) (0, 0))
    let mid_data := (sorted.drop early_end).take (mid_end - early_end)
    let mid_sampled :=
      if mid_data = [] then []
      else (List.range mid_keep).map
        (fun i => mid_data.getD (i * mid_data.length / mid_keep) (0, 0))
    let recent_data := sorted.drop mid_end
    let recent_sampled :=
      if recent_data = [] then []
      else (List.range recent_keep.toNat).map
        (fun i => recent_data.getD (i * recent_data.length / recent_keep.toNat) (0, 0))
    let newData := early_sampled ++ mid_sampled ++ recent_sampled
    let latest := sorted.getLastD (0, 0)
    let newData2 :=
      if latest ∉ newData then newData.dropLast ++ [latest] else newData
    { ma with current_timestamp := some timestamp, data := newData2 }
  else
    { ma with current_timestamp := some timestamp, data := data1 }

/-- The `current_price = self.data[-1][1] if self.data else 100.0` computation
of `GetSMA`: price of the last stored sample, or the `100.0` fallback. -/
def current_price (data : List (Int × ℚ)) : ℚ :=
  match data.getLast? with
  | some s => s.2
  | none => 100

/-- `MovingAverage.GetSMA()`.  The Python guard `if not self.current_timestamp`
is truthiness: it fires both when no `Update` has happened (`None`) and when
the current timestamp is exactly `0`.  `current_price` is the price of the
last stored sample (`100.0` for an empty store).  The primary walk runs from
`now` down to `window_start = now - window`; then, if `now`'s hour is `>= 12`
(`current_session == "afternoon"`) and the point count is `< window`, the
continuation walk restarts at that day's `11:30:00` with a budget of
`window - count` trading seconds.  Result `total / count`, or `0.0` if no
point counted.  Fuel as described in the header; `getD` default `(0, 0)` is
never used (theorem `walk_fuel_sufficient`). -/
def MovingAverage.GetSMA (ma : MovingAverage) : ℚ :=
  match ma.current_timestamp with
  | none => 0
  | some now =>
      if now = 0 then 0
      else
        let window_start := now - ma.window
        let cp := current_price ma.data
        let r1 := (walk1Aux ma.data cp window_start ((now + 1).toNat + 1) now 0 0).getD (0, 0)
        let morning_end := dayStart now + 41400
        let r2 :=
          if 12 ≤ hourOfDay now ∧ (r1.2 : Int) < ma.window then
            (walk2Aux ma.data cp ((morning_end + 1).toNat + 1) morning_end
              (ma.window - r1.2) r1.1 r1.2).getD (0, 0)
          else r1
        if 0 < r2.2 then r2.1 / (r2.2 : ℚ) else 0

/-- `MovingAverage.Get()` just delegates to `GetSMA`. -/
def MovingAverage.Get (ma : MovingAverage) : ℚ := ma.GetSMA

/-- Fold a list of `(timestamp, value)` updates into an engine state. -/
def applyUpdates (ma : MovingAverage) (us : List (Int × ℚ)) : MovingAverage :=
  us.foldl (fun m u => m.Update u.1 u.2) ma

/-! ### Basic arithmetic lemmas about the calendar helpers -/

/-- The skip-ahead jump never moves the cursor forward. -/
theorem jumpPrimary_le (t : Int) : jumpPrimary t ≤ t := by
  unfold jumpPrimary
  dsimp only
  split_ifs <;> omega

/-- The continuation jump never moves the cursor forward. -/
theorem jumpCont_le (t : Int) : jumpCont t ≤ t := by
  unfold jumpCont
  dsimp only
  split_ifs <;> omega

/-- One iteration of the primary walk moves the cursor down by at least one. -/
theorem step1_le (c : Int) :
    (if ¬ is_trading_time (c - 1) ∧ 0 < c - 1 then jumpPrimary (c - 1) else c - 1) ≤ c - 1 := by
  split_ifs with h
  · exact jumpPrimary_le (c - 1)
  · omega

/-- One iteration of the continuation walk moves the cursor down by at least one. -/
theorem step2_le (c : Int) :
    (if ¬ is_trading_time (c - 1) ∧ 0 < c - 1 then jumpCont (c - 1) else c - 1) ≤ c - 1 := by
  split_ifs with h
  · exact jumpCont_le (c - 1)
  · omega

/-- Fuel `(c+1).toNat + 1` suffices for the primary walk to reach its exit
condition: the cursor strictly decreases every iteration and the loop stops
as soon as it is negative. -/
theorem walk1Aux_isSome (data : List (Int × ℚ)) (cp : ℚ) (ws : Int) :
    ∀ (fuel : Nat) (c : Int) (total : ℚ) (cnt : Nat),
      (c + 1).toNat + 1 ≤ fuel → (walk1Aux data cp ws fuel c total cnt).isSome := by
  intro fuel
  induction fuel with
  | zero => intro c total cnt h; omega
  | succ f ih =>
      intro c total cnt h
      rw [walk1Aux]
      split
      · next hcond =>
          apply ih
          have h2 := step1_le c
          omega
      · rfl

/-- Fuel `(c+1).toNat + 1` suffices for the continuation walk as well. -/
theorem walk2Aux_isSome (data : List (Int × ℚ)) (cp : ℚ) :
    ∀ (fuel : Nat) (c : Int) (remaining : Int) (total : ℚ) (cnt : Nat),
      (c + 1).toNat + 1 ≤ fuel → (walk2Aux data cp fuel c remaining total cnt).isSome := by
  intro fuel
  induction fuel with
  | zero => intro c r total cnt h; omega
  | succ f ih =>
      intro c r total cnt h
      rw [walk2Aux]
      split
      · next hcond =>
          apply ih
          have h2 := step2_le c
          omega
      · rfl

/-- C9: `Compute(now, window)` terminates: a skip-ahead jump never moves the
cursor forward (so decrement-then-jump decreases the cursor by at least one
second each iteration of either backward walk), and consequently both walks
reach their exit condition within `(c+1).toNat + 1` iterations. -/
theorem c9_termination (data : List (Int × ℚ)) (cp : ℚ) (ws : Int)
    (fuel : Nat) (c : Int) (total : ℚ) (cnt : Nat) (remaining : Int) :
    (jumpPrimary c ≤ c ∧ jumpCont c ≤ c) ∧
    ((if ¬ is_trading_time (c - 1) ∧ 0 < c - 1 then jumpPrimary (c - 1) else c - 1) ≤ c - 1) ∧
    ((if ¬ is_trading_time (c - 1) ∧ 0 < c - 1 then jumpCont (c - 1) else c - 1) ≤ c - 1) ∧
    ((c + 1).toNat + 1 ≤ fuel →
      (walk1Aux data cp ws fuel c total cnt).isSome ∧
      (walk2Aux data cp fuel c remaining total cnt).isSome) :=
  ⟨⟨jumpPrimary_le c, jumpCont_le c⟩, step1_le c, step2_le c,
    fun h => ⟨walk1Aux_isSome data cp ws fuel c total cnt h,
              walk2Aux_isSome data cp fuel c remaining total cnt h⟩⟩

/-- Witness for C9 at a concrete state. -/
theorem c9_termination_witness :
    ((3 : Int) + 1).toNat + 1 ≤ 5 ∧
    ((walk1Aux [] 0 0 5 3 0 0).isSome ∧ (walk2Aux [] 0 5 3 1 0 0).isSome) :=
  ⟨by decide, (c9_termination [] 0 0 5 3 0 0 1).2.2.2 (by decide)⟩

/-! ### C10: a zero current timestamp is treated as "no data yet" -/

/-- C10: if the most recent `Update` carried timestamp exactly `0`, `Get()`
returns `0.0` regardless of the stored samples, because the truthiness check
`if not self.current_timestamp` fires for `0` just as for `None`. -/
theorem c10_zero_timestamp (ma : MovingAverage) (v : ℚ) :
    (ma.Update 0 v).Get = 0 := by
  unfold MovingAverage.Get MovingAverage.Update
  dsimp only
  split <;> simp [MovingAverage.GetSMA]

/-! ### C7: resolution strictly before the earliest retained sample -/

/-- In the integer-timestamp model the `0.1`-second tolerance test succeeds
only on equality. -/
theorem exactMatch_none (t : Int) :
    ∀ data : List (Int × ℚ), (∀ p ∈ data, t < p.1) → exactMatch t data = none := by
  intro data
  induction data with
  | nil => intro _; rfl
  | cons hd tl ih =>
      intro hall
      have h1 : t < hd.1 := hall hd (List.mem_cons_self hd tl)
      rw [exactMatch]
      rw [if_neg (by omega)]
      exact ih fun p hp => hall p (List.mem_cons_of_mem hd hp)

/-- C7: for a non-empty series and any instant strictly earlier than every
retained sample (in particular earlier than the earliest), `_find_price_at_time`
returns the `0` sentinel — not the fallback and not a stored price. -/
theorem c7_before_earliest (data : List (Int × ℚ)) (t : Int) (fallback : ℚ)
    (hne : data ≠ []) (hall : ∀ p ∈ data, t < p.1) :
    find_price_at_time data t fallback = 0 := by
  unfold find_price_at_time
  rw [if_neg hne]
  have hsorted_mem : ∀ p ∈ sortedLex data, t < p.1 := by
    intro p hp
    exact hall p ((List.perm_insertionSort _ data).mem_iff.mp hp)
  have hne' : sortedLex data ≠ [] := by
    intro h
    have := (List.perm_insertionSort
      (fun a b : Int × ℚ => a.1 < b.1 ∨ (a.1 = b.1 ∧ a.2 ≤ b.2)) data).length_eq
    rw [show sortedLex data = List.insertionSort _ data from rfl] at h
    rw [h] at this
    exact hne (List.length_eq_zero.mp this.symm)
  rw [exactMatch_none t data hall]
  have hhead : t < ((sortedLex data).headD (0, 0)).1 := by
    cases hs : sortedLex data with
    | nil => exact absurd hs hne'
    | cons a l =>
        have : a ∈ sortedLex data := by rw [hs]; exact List.mem_cons_self a l
        simpa using hsorted_mem a this
  rw [if_pos ⟨hne', hhead⟩]

/-- Witness for C7 at a concrete series and instant. -/
theorem c7_before_earliest_witness :
    (([((5 : Int), (100 : ℚ))] : List (Int × ℚ)) ≠ [] ∧ (∀ p ∈ [((5 : Int), (100 : ℚ))], (3 : Int) < p.1)) ∧
    find_price_at_time [((5 : Int), (100 : ℚ))] 3 7 = 0 :=
  ⟨⟨by decide, by decide⟩,
    c7_before_earliest [(5, 100)] 3 7 (by decide) (by decide)⟩

/-! ### C2: the store never exceeds its capacity -/

/-- One `Update` keeps the store within capacity: if the append overflows,
the three-partition resampling produces `early_keep + mid_keep + recent_keep`
(at most `num_bin`) samples, and the final latest-sample fixup rewrites one
slot in place. -/
theorem update_data_length_le (ma : MovingAverage) (t : Int) (v : ℚ)
    (hcap : 1 ≤ ma.num_bin) (hlen : ma.data.length ≤ ma.num_bin) :
    (ma.Update t v).data.length ≤ ma.num_bin := by
  unfold MovingAverage.Update
  dsimp only
  split
  · next hgt =>
      have hgt' : ma.data.length + 1 > ma.num_bin := by simpa using hgt
      have hslen : (sortedByTs (ma.data ++ [(t, v)])).length = ma.data.length + 1 := by
        unfold sortedByTs
        rw [(List.perm_insertionSort _ _).length_eq]
        simp
      simp only [List.length_append, List.length_singleton]
      have e1 : (List.take ((ma.data.length + 1) / 5)
            (sortedByTs (ma.data ++ [(t, v)])) = []) ↔
          ((ma.data.length + 1) / 5 = 0) := by
        rw [← List.length_eq_zero, List.length_take, hslen]
        omega
      have e2 : (List.take ((ma.data.length + 1) / 2 - (ma.data.length + 1) / 5)
            (List.drop ((ma.data.length + 1) / 5) (sortedByTs (ma.data ++ [(t, v)]))) = [])
          ↔ False := by
        simp only [iff_false, ← List.length_eq_zero, List.length_take, List.length_drop, hslen]
        omega
      have e3 : (List.drop ((ma.data.length + 1) / 2)
            (sortedByTs (ma.data ++ [(t, v)])) = []) ↔ False := by
        simp only [iff_false, ← List.length_eq_zero, List.length_drop, hslen]
        omega
      simp only [e1, e2, e3, if_false]
      split_ifs <;>
        simp only [List.length_append, List.length_map, List.length_range,
          List.length_dropLast, List.length_take, List.length_drop,
          List.length_singleton, List.length_nil, hslen] <;>
        omega
  · next hle =>
      have h2 : ¬ (ma.data.length + 1 > ma.num_bin) := by simpa using hle
      simp only [List.length_append, List.length_singleton]
      omega

/-- `Update` never changes the capacity field. -/
theorem update_num_bin (ma : MovingAverage) (t : Int) (v : ℚ) :
    (ma.Update t v).num_bin = ma.num_bin := by
  unfold MovingAverage.Update
  dsimp only
  split <;> rfl

/-- Capacity bound propagated through any sequence of updates. -/
theorem applyUpdates_length_le (us : List (Int × ℚ)) :
    ∀ (ma : MovingAverage), 1 ≤ ma.num_bin → ma.data.length ≤ ma.num_bin →
      (applyUpdates ma us).data.length ≤ (applyUpdates ma us).num_bin := by
  induction us with
  | nil => intro ma h1 h2; exact h2
  | cons u rest ih =>
      intro ma h1 h2
      have hstep := update_data_length_le ma u.1 u.2 h1 h2
      have hnb := update_num_bin ma u.1 u.2
      exact ih (ma.Update u.1 u.2) (by omega) (by omega)

/-- C2: for every capacity `>= 1` and every finite sequence of
`Update(timestamp, price)` calls, the number of stored samples is at most the
capacity immediately after every `Update` (every intermediate state is the
final state of a shorter update sequence, so quantifying over all sequences
covers "after every Update"). -/
theorem c2_capacity (cap : Nat) (win : Int) (us : List (Int × ℚ)) (hcap : 1 ≤ cap) :
    (applyUpdates (MovingAverage.init cap win) us).data.length ≤ cap := by
  have h := applyUpdates_length_le us (MovingAverage.init cap win) hcap (by simp [MovingAverage.init])
  have hnb : ∀ (ms : MovingAverage) (l : List (Int × ℚ)), (applyUpdates ms l).num_bin = ms.num_bin := by
    intro ms l
    induction l generalizing ms with
    | nil => rfl
    | cons u rest ih => rw [applyUpdates] at *; simp only [List.foldl_cons]
                        rw [show List.foldl _ _ rest = applyUpdates (ms.Update u.1 u.2) rest from rfl]
                        rw [ih, update_num_bin]
  rw [hnb] at h
  exact h

/-- Witness for C2 on a concrete capacity and update sequence. -/
theorem c2_capacity_witness :
    1 ≤ 2 ∧ (applyUpdates (MovingAverage.init 2 60) [(1, 10), (2, 20), (3, 30)]).data.length ≤ 2 :=
  ⟨by decide, c2_capacity 2 60 [(1, 10), (2, 20), (3, 30)] (by decide)⟩

/-! ### C3: the globally-latest sample is always present -/

instance : IsTotal (Int × ℚ) (fun a b => a.1 ≤ b.1) :=
  ⟨fun a b => le_total a.1 b.1⟩

instance : IsTrans (Int × ℚ) (fun a b => a.1 ≤ b.1) :=
  ⟨fun _ _ _ h1 h2 => le_trans h1 h2⟩

/-- The last element (with default) of a non-empty list is a member. -/
theorem getLastD_mem_of_ne_nil :
    ∀ (l : List (Int × ℚ)) (d : Int × ℚ), l ≠ [] → l.getLastD d ∈ l := by
  intro l
  induction l with
  | nil => intro d h; exact absurd rfl h
  | cons a t ih =>
      intro d _
      rw [List.getLastD_cons]
      cases t with
      | nil => simp
      | cons b m => exact List.mem_cons_of_mem a (ih a (by simp))

/-- In a list sorted by timestamp, every element's timestamp is at most the
last element's. -/
theorem sorted_fst_le_getLastD :
    ∀ (l : List (Int × ℚ)) (d : Int × ℚ),
      List.Sorted (fun a b => a.1 ≤ b.1) l → ∀ x ∈ l, x.1 ≤ (l.getLastD d).1 := by
  intro l
  induction l with
  | nil => intro d _ x hx; cases hx
  | cons a t ih =>
      intro d hs x hx
      rcases List.sorted_cons.mp hs with ⟨ha, ht⟩
      rw [List.getLastD_cons]
      rcases List.mem_cons.mp hx with hxa | hxt
      · subst hxa
        cases t with
        | nil => simp
        | cons b m =>
            have hmem := getLastD_mem_of_ne_nil (b :: m) x (by simp)
            exact ha _ hmem
      · exact ih a ht x hxt

/-- Every element of an evenly-spaced index sample of a partition belongs to
the partition. -/
theorem sampled_subset (part : List (Int × ℚ)) (keep : Nat) (hne : part ≠ []) :
    ∀ x ∈ (List.range keep).map (fun i => part.getD (i * part.length / keep) (0, 0)),
      x ∈ part := by
  intro x hx
  simp only [List.mem_map, List.mem_range] at hx
  obtain ⟨i, hi, rfl⟩ := hx
  have hk : 0 < keep := Nat.pos_of_ne_zero (by omega)
  have hlen : 0 < part.length := List.length_pos.mpr hne
  have hidx : i * part.length / keep < part.length := by
    rw [Nat.div_lt_iff_lt_mul hk]
    calc i * part.length < keep * part.length :=
          Nat.mul_lt_mul_of_lt_of_le hi (le_refl _) hlen
    _ = part.length * keep := Nat.mul_comm _ _
  rw [List.getD_eq_getElem?_getD, List.getElem?_eq_getElem hidx]
  exact List.getElem_mem hidx

/-- Single-step invariant for C3: after an `Update`, the stored data is a
subset of all samples inserted so far, and some stored sample carries the
maximum inserted timestamp (the downsampling's latest-sample fixup). -/
theorem update_invariant (ma : MovingAverage) (u : Int × ℚ) (seen : List (Int × ℚ))
    (h1 : ma.data ⊆ seen)
    (h2 : seen ≠ [] → ∃ p ∈ ma.data, ∀ q ∈ seen, q.1 ≤ p.1) :
    (ma.Update u.1 u.2).data ⊆ (seen ++ [u]) ∧
    (∃ p ∈ (ma.Update u.1 u.2).data, ∀ q ∈ seen ++ [u], q.1 ≤ p.1) := by
  have hdata1_sub : ma.data ++ [(u.1, u.2)] ⊆ seen ++ [u] := by
    intro x hx
    rcases List.mem_append.mp hx with hx | hx
    · exact List.mem_append.mpr (Or.inl (h1 hx))
    · simp only [List.mem_singleton] at hx
      subst hx
      simp
  have humem : (u.1, u.2) ∈ ma.data ++ [(u.1, u.2)] := by simp
  unfold MovingAverage.Update
  dsimp only
  split
  · next hgt =>
      set data1 := ma.data ++ [(u.1, u.2)] with hdata1
      set sorted := sortedByTs data1 with hsorted
      have hperm : sorted.Perm data1 := List.perm_insertionSort _ _
      have hsortedsub : sorted ⊆ data1 := hperm.subset
      have hsorted_ne : sorted ≠ [] := by
        intro h
        have := hperm.length_eq
        rw [h] at this
        simp [hdata1] at this
      have hsorted_sorted : List.Sorted (fun a b : Int × ℚ => a.1 ≤ b.1) sorted :=
        List.sorted_insertionSort _ _
      set latest := sorted.getLastD (0, 0) with hlatest
      have hlatest_mem : latest ∈ data1 :=
        hsortedsub (getLastD_mem_of_ne_nil sorted (0, 0) hsorted_ne)
      have hlatest_max : ∀ x ∈ data1, x.1 ≤ latest.1 := by
        intro x hx
        exact sorted_fst_le_getLastD sorted (0, 0) hsorted_sorted x (hperm.mem_iff.mpr hx)
      have hnewsub : ∀ newData : List (Int × ℚ), newData ⊆ data1 →
          (if latest ∉ newData then newData.dropLast ++ [latest] else newData) ⊆ seen ++ [u] := by
        intro newData hsub
        split
        · intro x hx
          rcases List.mem_append.mp hx with hx | hx
          · exact hdata1_sub (hsub (List.dropLast_subset newData hx))
          · simp only [List.mem_singleton] at hx
            subst hx
            exact hdata1_sub hlatest_mem
        · exact fun x hx => hdata1_sub (hsub hx)
      have hlatest_in : ∀ newData : List (Int × ℚ),
          latest ∈ (if latest ∉ newData then newData.dropLast ++ [latest] else newData) := by
        intro newData
        split
        · simp
        · next h => exact not_not.mp h
      have hsampsub : (if List.take (data1.length / 5) sorted = [] then []
            else (List.range (max 1 (ma.num_bin / 10))).map
              (fun i => (List.take (data1.length / 5) sorted).getD
                (i * (List.take (data1.length / 5) sorted).length / max 1 (ma.num_bin / 10)) (0, 0)))
          ++ (if List.take (data1.length / 2 - data1.length / 5) (List.drop (data1.length / 5) sorted) = [] then []
            else (List.range (max 1 (ma.num_bin * 3 / 10))).map
              (fun i => (List.take (data1.length / 2 - data1.length / 5) (List.drop (data1.length / 5) sorted)).getD
                (i * (List.take (data1.length / 2 - data1.length / 5) (List.drop (data1.length / 5) sorted)).length / max 1 (ma.num_bin * 3 / 10)) (0, 0)))
          ++ (if List.drop (data1.length / 2) sorted = [] then []
            else (List.range ((ma.num_bin : Int) - (max 1 (ma.num_bin / 10) : Nat) - (max 1 (ma.num_bin * 3 / 10) : Nat)).toNat).map
              (fun i => (List.drop (data1.length / 2) sorted).getD
                (i * (List.drop (data1.length / 2) sorted).length / ((ma.num_bin : Int) - (max 1 (ma.num_bin / 10) : Nat) - (max 1 (ma.num_bin * 3 / 10) : Nat)).toNat) (0, 0)))
          ⊆ data1 := by
        intro x hx
        rcases List.mem_append.mp hx with hx | hx
        · rcases List.mem_append.mp hx with hx | hx
          · revert hx
            split
            · intro hx; cases hx
            · next hne => intro hx
                          exact hsortedsub (List.take_subset _ _ (sampled_subset _ _ hne x hx))
          · revert hx
            split
            · intro hx; cases hx
            · next hne => intro hx
                          exact hsortedsub (List.drop_subset _ _
                            (List.take_subset _ _ (sampled_subset _ _ hne x hx)))
        · revert hx
          split
          · intro hx; cases hx
          · next hne => intro hx
                        exact hsortedsub (List.drop_subset _ _ (sampled_subset _ _ hne x hx))
      refine ⟨hnewsub _ hsampsub, latest, hlatest_in _, ?_⟩
      intro q hq
      rcases List.mem_append.mp hq with hq | hq
      · rcases h2 (by intro h; rw [h] at hq; cases hq) with ⟨p, hp, hpmax⟩
        have hp1 : p ∈ data1 := List.mem_append.mpr (Or.inl hp)
        exact le_trans (hpmax q hq) (hlatest_max p hp1)
      · simp only [List.mem_singleton] at hq
        subst hq
        exact hlatest_max (q.1, q.2) humem
  · next hle =>
      refine ⟨hdata1_sub, ?_⟩
      by_cases hseen : seen = []
      · subst hseen
        refine ⟨(u.1, u.2), humem, ?_⟩
        intro q hq
        simp only [List.nil_append, List.mem_singleton] at hq
        subst hq
        simp
      · rcases h2 hseen with ⟨p, hp, hpmax⟩
        rcases le_total p.1 u.1 with hcmp | hcmp
        · refine ⟨(u.1, u.2), humem, ?_⟩
          intro q hq
          rcases List.mem_append.mp hq with hq | hq
          · exact le_trans (hpmax q hq) hcmp
          · simp only [List.mem_singleton] at hq
            subst hq
            simp
        · refine ⟨p, List.mem_append.mpr (Or.inl hp), ?_⟩
          intro q hq
          rcases List.mem_append.mp hq with hq | hq
          · exact hpmax q hq
          · simp only [List.mem_singleton] at hq
            subst hq
            exact hcmp

/-- Invariant propagated along a sequence of updates. -/
theorem applyUpdates_invariant (us : List (Int × ℚ)) :
    ∀ (ma : MovingAverage) (seen : List (Int × ℚ)),
      ma.data ⊆ seen →
      (seen ≠ [] → ∃ p ∈ ma.data, ∀ q ∈ seen, q.1 ≤ p.1) →
      (applyUpdates ma us).data ⊆ (seen ++ us) ∧
      ((seen ++ us) ≠ [] → ∃ p ∈ (applyUpdates ma us).data, ∀ q ∈ seen ++ us, q.1 ≤ p.1) := by
  induction us with
  | nil =>
      intro ma seen h1 h2
      rw [show applyUpdates ma [] = ma from rfl, List.append_nil]
      exact ⟨h1, h2⟩
  | cons u rest ih =>
      intro ma seen h1 h2
      have step := update_invariant ma u seen h1 h2
      have hrec := ih (ma.Update u.1 u.2) (seen ++ [u]) step.1 (fun _ => step.2)
      rw [show applyUpdates ma (u :: rest) = applyUpdates (ma.Update u.1 u.2) rest from rfl]
      constructor
      · intro x hx
        have := hrec.1 hx
        simpa [List.append_assoc] using this
      · intro _
        rcases hrec.2 (by simp) with ⟨p, hp, hmax⟩
        refine ⟨p, hp, ?_⟩
        intro q hq
        apply hmax
        simp only [List.append_assoc, List.singleton_append]
        simpa using hq
  
/-- C3: for every capacity `>= 1` and every non-empty update sequence
(timestamps in any order, duplicates permitted), some stored sample is an
inserted sample carrying the maximum timestamp inserted so far, immediately
after every `Update` (again, every intermediate state is the final state of a
shorter sequence). -/
theorem c3_latest_present (cap : Nat) (win : Int) (us : List (Int × ℚ))
    (hcap : 1 ≤ cap) (hne : us ≠ []) :
    ∃ p ∈ (applyUpdates (MovingAverage.init cap win) us).data,
      p ∈ us ∧ ∀ q ∈ us, q.1 ≤ p.1 := by
  have h := applyUpdates_invariant us (MovingAverage.init cap win) []
    (by simp [MovingAverage.init]) (by intro h; exact absurd rfl h)
  rcases h.2 (by simpa using hne) with ⟨p, hp, hmax⟩
  refine ⟨p, hp, ?_, ?_⟩
  · have := h.1 hp
    simpa using this
  · intro q hq
    exact hmax q (by simpa using hq)

/-- Witness for C3 on a concrete out-of-order update sequence. -/
theorem c3_latest_present_witness :
    (1 : Nat) ≤ 2 ∧ ([((1 : Int), (10 : ℚ)), (3, 30), (2, 20)] : List (Int × ℚ)) ≠ [] ∧
    (∃ p ∈ (applyUpdates (MovingAverage.init 2 60) [(1, 10), (3, 30), (2, 20)]).data,
      p ∈ ([((1 : Int), (10 : ℚ)), (3, 30), (2, 20)] : List (Int × ℚ)) ∧
      ∀ q ∈ ([((1 : Int), (10 : ℚ)), (3, 30), (2, 20)] : List (Int × ℚ)), q.1 ≤ p.1) :=
  ⟨by decide, by decide, c3_latest_present 2 60 [(1, 10), (3, 30), (2, 20)] (by decide) (by decide)⟩

/-! ### List forms of the two walks (proof infrastructure)

The accumulating walks thread `total : ℚ` through `Rat` addition; for both
reasoning and concrete evaluation it is convenient to know the *list* of
prices a walk accumulates, from which `total` is the sum and `cnt` the
length. -/

/-- List of prices the primary walk accumulates from cursor `c`. -/
def walk1List (data : List (Int × ℚ)) (cp : ℚ) (windowStart : Int) :
    Nat → Int → Option (List ℚ)
  | 0, _ => none
  | fuel + 1, c =>
      if windowStart ≤ c ∧ 0 ≤ c then
        let p := find_price_at_time data c cp
        let add := if is_trading_time c ∧ 0 < p then [p] else []
        let c1 := c - 1
        let c2 := if ¬ is_trading_time c1 ∧ 0 < c1 then jumpPrimary c1 else c1
        (walk1List data cp windowStart fuel c2).map (fun l => add ++ l)
      else some []

/-- List of prices the continuation walk accumulates. -/
def walk2List (data : List (Int × ℚ)) (cp : ℚ) :
    Nat → Int → Int → Option (List ℚ)
  | 0, _, _ => none
  | fuel + 1, c, remaining =>
      if 0 ≤ c ∧ 0 < remaining then
        let p := find_price_at_time data c cp
        let add := if is_trading_time c ∧ 0 < p then [p] else []
        let remaining' := if is_trading_time c then remaining - 1 else remaining
        let c1 := c - 1
        let c2 := if ¬ is_trading_time c1 ∧ 0 < c1 then jumpCont c1 else c1
        (walk2List data cp fuel c2 remaining').map (fun l => add ++ l)
      else some []

/-- The accumulating primary walk is the sum/length image of the list walk. -/
theorem walk1Aux_eq_list (data : List (Int × ℚ)) (cp : ℚ) (ws : Int) :
    ∀ (fuel : Nat) (c : Int) (total : ℚ) (cnt : Nat),
      walk1Aux data cp ws fuel c total cnt =
        (walk1List data cp ws fuel c).map (fun l => (total + l.sum, cnt + l.length)) := by
  intro fuel
  induction fuel with
  | zero => intro c total cnt; rfl
  | succ f ih =>
      intro c total cnt
      rw [walk1Aux, walk1List]
      split
      · next hcond =>
          rw [ih]
          dsimp only
          cases h : walk1List data cp ws f
              (if ¬ is_trading_time (c - 1) ∧ 0 < c - 1 then jumpPrimary (c - 1) else c - 1) with
          | none => rfl
          | some l =>
              simp only [Option.map_some']
              split_ifs with htr
              · simp only [List.sum_cons, List.length_cons, List.cons_append, List.nil_append]
                refine congrArg some (Prod.ext ?_ ?_)
                · dsimp only; ring
                · dsimp only; omega
              · simp
      · simp

/-- The accumulating continuation walk is the sum/length image of the list
walk. -/
theorem walk2Aux_eq_list (data : List (Int × ℚ)) (cp : ℚ) :
    ∀ (fuel : Nat) (c : Int) (remaining : Int) (total : ℚ) (cnt : Nat),
      walk2Aux data cp fuel c remaining total cnt =
        (walk2List data cp fuel c remaining).map (fun l => (total + l.sum, cnt + l.length)) := by
  intro fuel
  induction fuel with
  | zero => intro c r total cnt; rfl
  | succ f ih =>
      intro c r total cnt
      rw [walk2Aux, walk2List]
      split
      · next hcond =>
          rw [ih]
          dsimp only
          cases h : walk2List data cp f
              (if ¬ is_trading_time (c - 1) ∧ 0 < c - 1 then jumpCont (c - 1) else c - 1)
              (if is_trading_time c then r - 1 else r) with
          | none => rfl
          | some l =>
              simp only [Option.map_some']
              split_ifs with htr
              · simp only [List.sum_cons, List.length_cons, List.cons_append, List.nil_append]
                refine congrArg some (Prod.ext ?_ ?_)
                · dsimp only; ring
                · dsimp only; omega
              · simp
      · simp

/-- Evaluation lemma for `GetSMA` in terms of the two list walks: given the
list of prices the primary walk collects (and, when the continuation
triggers, the continuation's list), `GetSMA` is their mean. -/
theorem getSMA_eq_of_lists (ma : MovingAverage) (now : Int) (l1 : List ℚ)
    (hc : ma.current_timestamp = some now) (h0 : ¬ now = 0)
    (h1 : walk1List ma.data (current_price ma.data) (now - ma.window)
      ((now + 1).toNat + 1) now = some l1) :
    (¬ (12 ≤ hourOfDay now ∧ (l1.length : Int) < ma.window) →
      ma.GetSMA = if 0 < l1.length then l1.sum / (l1.length : ℚ) else 0) ∧
    (∀ l2 : List ℚ, (12 ≤ hourOfDay now ∧ (l1.length : Int) < ma.window) →
      walk2List ma.data (current_price ma.data) ((dayStart now + 41400 + 1).toNat + 1)
        (dayStart now + 41400) (ma.window - l1.length) = some l2 →
      ma.GetSMA = if 0 < (l1 ++ l2).length then (l1 ++ l2).sum / ((l1 ++ l2).length : ℚ) else 0) := by
  constructor
  · intro htrig
    unfold MovingAverage.GetSMA
    rw [hc]
    dsimp only
    rw [if_neg h0, walk1Aux_eq_list, h1]
    simp only [Option.map_some', Option.getD_some, zero_add]
    rw [if_neg htrig]
  · intro l2 htrig h2
    unfold MovingAverage.GetSMA
    rw [hc]
    dsimp only
    rw [if_neg h0, walk1Aux_eq_list, h1]
    simp only [Option.map_some', Option.getD_some, zero_add]
    rw [if_pos htrig, walk2Aux_eq_list, h2]
    simp only [Option.map_some', Option.getD_some]
    simp [List.sum_append, List.length_append]

/-! ### C4: the afternoon continuation -/

/-- Afternoon-session membership `[13:00:00, 15:00:00]` as claimed by the
spec (this is the claim's trigger; the code's actual trigger is
`hour >= 12`). -/
def inAfternoonSession (t : Int) : Bool :=
  decide (46800 ≤ secondsOfDay t ∧ secondsOfDay t ≤ 54000)

/-- Reference (claim-side): what `Get()` would return if the afternoon
continuation never ran — the primary backward walk alone. -/
def primaryOnlySMA (ma : MovingAverage) : ℚ :=
  match ma.current_timestamp with
  | none => 0
  | some now =>
      if now = 0 then 0
      else
        let r1 := (walk1Aux ma.data (current_price ma.data) (now - ma.window)
          ((now + 1).toNat + 1) now 0 0).getD (0, 0)
        if 0 < r1.2 then r1.1 / (r1.2 : ℚ) else 0

/-- C4 counterexample: state with updates `(Fri 2025-04-04 09:30:00, 100)` and
`(Fri 16:00:00, 200)`, window 5.  `now = 16:00:00` is *not* in the afternoon
session `[13:00, 15:00]`, yet `Get()` returns `100` (five morning seconds
pulled in by the continuation) while the primary walk alone returns `0`:
the continuation ran outside the claimed trigger. -/
theorem c4_counterexample :
    inAfternoonSession 1743782400 = false ∧
    (((MovingAverage.init 10 5).Update 1743759000 100).Update 1743782400 200).GetSMA = 100 ∧
    primaryOnlySMA (((MovingAverage.init 10 5).Update 1743759000 100).Update 1743782400 200) = 0 ∧
    (100 : ℚ) ≠ 0 := by
  refine ⟨by decide, ?_, by decide, by norm_num⟩
  have h := getSMA_eq_of_lists
    (((MovingAverage.init 10 5).Update 1743759000 100).Update 1743782400 200)
    1743782400 [] (by decide) (by decide) (by decide)
  have h2 := h.2 [100, 100, 100, 100, 100] (by constructor <;> decide) (by decide)
  rw [h2]
  norm_num [List.sum_cons, List.sum_nil]

/-- C4 amended: the continuation triggers exactly when `now`'s hour is `>= 12`
(the code's "afternoon") and the primary count is below `window`; it restarts
at that day's `11:30:00` with budget `window - count` (decremented per visited
trading second), shares `is_trading_time` and `_find_price_at_time` with the
primary walk, and its jump agrees with the primary jump everywhere except the
midday-break branch, which it omits. -/
theorem c4_amended (ma : MovingAverage) (now : Int) (r1 : ℚ × Nat)
    (hc : ma.current_timestamp = some now) (h0 : ¬ now = 0)
    (h1 : walk1Aux ma.data (current_price ma.data) (now - ma.window)
      ((now + 1).toNat + 1) now 0 0 = some r1) :
    (¬ (12 ≤ hourOfDay now ∧ (r1.2 : Int) < ma.window) → ma.GetSMA = primaryOnlySMA ma) ∧
    ((12 ≤ hourOfDay now ∧ (r1.2 : Int) < ma.window) →
      ma.GetSMA = (match walk2Aux ma.data (current_price ma.data)
          ((dayStart now + 41400 + 1).toNat + 1) (dayStart now + 41400)
          (ma.window - r1.2) r1.1 r1.2 with
        | some r2 => if 0 < r2.2 then r2.1 / (r2.2 : ℚ) else 0
        | none => 0)) ∧
    (∀ t : Int, ¬ (11 ≤ hourOfDay t ∧ hourOfDay t < 13) → jumpCont t = jumpPrimary t) ∧
    (∃ t : Int, jumpCont t ≠ jumpPrimary t) := by
  refine ⟨?_, ?_, ?_, ⟨1743768000, by decide⟩⟩
  · intro htrig
    unfold MovingAverage.GetSMA primaryOnlySMA
    rw [hc]
    dsimp only
    rw [if_neg h0, if_neg h0, h1]
    simp only [Option.getD_some]
    rw [if_neg htrig]
  · intro htrig
    unfold MovingAverage.GetSMA
    rw [hc]
    dsimp only
    rw [if_neg h0, h1]
    simp only [Option.getD_some]
    rw [if_pos htrig]
    cases h2 : walk2Aux ma.data (current_price ma.data)
        ((dayStart now + 41400 + 1).toNat + 1) (dayStart now + 41400)
        (ma.window - r1.2) r1.1 r1.2 with
    | none => simp
    | some r2 => simp
  · intro t hmid
    unfold jumpCont jumpPrimary
    dsimp only
    rw [if_neg hmid]

/-- C4 amended witness: the theorem applied at a concrete state (its last
conjunct: the two jump functions genuinely differ). -/
theorem c4_amended_witness : ∃ t : Int, jumpCont t ≠ jumpPrimary t :=
  (c4_amended ((MovingAverage.init 10 5).Update 3 100) 3 (0, 0)
    (by decide) (by decide) (by decide)).2.2.2

/-! ### Reference SMA over the trailing window (spec side) -/

/-- Contribution of a single instant: the resolved price if the instant is a
trading instant and the price is strictly positive, nothing otherwise. -/
def tradingContrib (data : List (Int × ℚ)) (cp : ℚ) (c : Int) : List ℚ :=
  if is_trading_time c ∧ 0 < find_price_at_time data c cp
  then [find_price_at_time data c cp] else []

/-- Contributions of the `k` instants `c, c-1, ..., c-k+1`, newest first. -/
def pricesRange (data : List (Int × ℚ)) (cp : ℚ) : Nat → Int → List ℚ
  | 0, _ => []
  | k + 1, c => tradingContrib data cp c ++ pricesRange data cp k (c - 1)

/-- Modelled from the spec (glossary "SMA", §6 `Get`): the resolved prices of
all valid trading seconds in the trailing window `[lo, hi]` (clamped at the
epoch, since the walk never inspects negative instants), zero-sentinel seconds
excluded. -/
def pricesInWindow (data : List (Int × ℚ)) (cp : ℚ) (lo hi : Int) : List ℚ :=
  pricesRange data cp ((hi + 1 - max lo 0).toNat) hi

/-- Modelled from the spec: arithmetic mean of the resolved prices across all
valid trading seconds in the trailing window, `0` when no second contributes. -/
def refSMA (data : List (Int × ℚ)) (cp : ℚ) (lo hi : Int) : ℚ :=
  let ps := pricesInWindow data cp lo hi
  if 0 < ps.length then ps.sum / (ps.length : ℚ) else 0

/-- Characterisation of `is_trading_time` as plain arithmetic. -/
theorem is_trading_time_iff (t : Int) :
    is_trading_time t = true ↔
      (weekdayOfDay (dayIndex t) < 5 ∧
        ((34200 ≤ secondsOfDay t ∧ secondsOfDay t ≤ 41400) ∨
         (46800 ≤ secondsOfDay t ∧ secondsOfDay t ≤ 54000))) := by
  unfold is_trading_time
  split_ifs with h
  · simp only [Bool.false_eq_true, false_iff]
    intro hcontra
    omega
  · simp only [decide_eq_true_eq]
    constructor
    · intro h2; exact ⟨by omega, h2⟩
    · intro h2; exact h2.2

/-- Negated characterisation. -/
theorem is_trading_time_eq_false_iff (t : Int) :
    is_trading_time t = false ↔
      ¬ (weekdayOfDay (dayIndex t) < 5 ∧
        ((34200 ≤ secondsOfDay t ∧ secondsOfDay t ≤ 41400) ∨
         (46800 ≤ secondsOfDay t ∧ secondsOfDay t ≤ 54000))) := by
  rw [← is_trading_time_iff]
  cases h : is_trading_time t <;> simp

/-- Invariant on the primary walk's cursor when the walk starts with a
time-of-day in `[09:00, 12:00)`: the cursor is a trading instant, or its
time-of-day lies in `[09:00:00, 15:00:00)`, or it is at/below the epoch. -/
def walkInv (c : Int) : Prop :=
  is_trading_time c = true ∨
  (32400 ≤ secondsOfDay c ∧ secondsOfDay c < 54000) ∨
  c ≤ 0

/-- Core step analysis of the primary walk under the morning-start invariant:
one decrement-plus-jump step preserves the invariant, and every instant the
jump skips over is a non-trading instant. -/
theorem step_analysis (c : Int) (h0 : 0 ≤ c) (hInv : walkInv c) :
    walkInv (if ¬ is_trading_time (c - 1) ∧ 0 < c - 1 then jumpPrimary (c - 1) else c - 1) ∧
    (∀ s : Int,
      (if ¬ is_trading_time (c - 1) ∧ 0 < c - 1 then jumpPrimary (c - 1) else c - 1) < s →
      s ≤ c - 1 → is_trading_time s = false) := by
  by_cases hg : ¬ is_trading_time (c - 1) ∧ 0 < c - 1
  · rw [if_pos hg]
    obtain ⟨hT, hpos⟩ := hg
    have hsodc : 32400 ≤ secondsOfDay c ∧ secondsOfDay c ≤ 54000 := by
      rcases hInv with h | h | h
      · rw [is_trading_time_iff] at h
        unfold secondsOfDay at *
        omega
      · unfold secondsOfDay at *
        omega
      · omega
    have hsodc1 : secondsOfDay (c - 1) = secondsOfDay c - 1 := by
      unfold secondsOfDay at *
      omega
    unfold jumpPrimary prevTradingDayClose skipWeekendsBack hourOfDay dayStart
    dsimp only
    unfold walkInv
    unfold weekdayOfDay dayIndex secondsOfDay at *
    split_ifs <;>
      constructor <;>
      first
        | (rw [is_trading_time_iff]
           unfold weekdayOfDay dayIndex secondsOfDay
           omega)
        | (intro s hs1 hs2
           rw [is_trading_time_eq_false_iff]
           unfold weekdayOfDay dayIndex secondsOfDay
           omega)
  · rw [if_neg hg]
    push_neg at hg
    constructor
    · by_cases ht : is_trading_time (c - 1) = true
      · exact Or.inl ht
      · have hle : c - 1 ≤ 0 := hg (by simpa using ht)
        exact Or.inr (Or.inr (by omega))
    · intro s hs1 hs2
      omega

/-- Skipping a block of non-trading instants does not change the window's
contribution list. -/
theorem pricesInWindow_eq_of_no_trading (data : List (Int × ℚ)) (cp : ℚ) (lo : Int) :
    ∀ (n : Nat) (a b : Int), b - a = n → a ≤ b →
      (∀ s : Int, a < s → s ≤ b → is_trading_time s = false) →
      pricesInWindow data cp lo b = pricesInWindow data cp lo a := by
  intro n
  induction n with
  | zero =>
      intro a b h1 _ _
      have : a = b := by omega
      rw [this]
  | succ k ih =>
      intro a b h1 h2 hskip
      by_cases hb : max lo 0 ≤ b
      · have hstep : pricesInWindow data cp lo b
            = tradingContrib data cp b ++ pricesInWindow data cp lo (b - 1) := by
          unfold pricesInWindow
          rw [show (b + 1 - max lo 0).toNat = (b - max lo 0).toNat + 1 from by omega,
            pricesRange]
          rw [show (b - max lo 0).toNat = ((b - 1) + 1 - max lo 0).toNat from by omega]
        have hcontrib : tradingContrib data cp b = [] := by
          unfold tradingContrib
          rw [if_neg]
          intro hcon
          have hfalse := hskip b (by omega) (by omega)
          rw [hfalse] at hcon
          simp at hcon
        rw [hstep, hcontrib, List.nil_append]
        exact ih a (b - 1) (by omega) (by omega) (fun s hs1 hs2 => hskip s hs1 (by omega))
      · have e1 : (b + 1 - max lo 0).toNat = 0 := by omega
        have e2 : (a + 1 - max lo 0).toNat = 0 := by omega
        unfold pricesInWindow
        rw [e1, e2]
        rfl

/-- Correctness of the primary walk when started under the invariant: it
collects exactly the contributions of the trading instants in
`[max lo 0, c]`. -/
theorem walk1List_correct (data : List (Int × ℚ)) (cp : ℚ) (lo : Int) :
    ∀ (fuel : Nat) (c : Int), (c + 1).toNat + 1 ≤ fuel → walkInv c →
      walk1List data cp lo fuel c = some (pricesInWindow data cp lo c) := by
  intro fuel
  induction fuel with
  | zero => intro c h _; omega
  | succ f ih =>
      intro c hfuel hInv
      rw [walk1List]
      split
      · next hcond =>
          obtain ⟨hlo, h0⟩ := hcond
          dsimp only
          have hstep := step_analysis c h0 hInv
          have hle := step1_le c
          rw [ih _ (by omega) hstep.1]
          simp only [Option.map_some']
          congr 1
          have hwin : pricesInWindow data cp lo c
              = tradingContrib data cp c ++ pricesInWindow data cp lo (c - 1) := by
            unfold pricesInWindow
            rw [show (c + 1 - max lo 0).toNat = (c - max lo 0).toNat + 1 from by omega,
              pricesRange]
            rw [show (c - max lo 0).toNat = ((c - 1) + 1 - max lo 0).toNat from by omega]
          have hskip : pricesInWindow data cp lo (c - 1) = pricesInWindow data cp lo
              (if ¬ is_trading_time (c - 1) ∧ 0 < c - 1 then jumpPrimary (c - 1) else c - 1) := by
            rcases eq_or_lt_of_le hle with heq | hlt
            · rw [heq]
            · exact pricesInWindow_eq_of_no_trading data cp lo
                (c - 1 - (if ¬ is_trading_time (c - 1) ∧ 0 < c - 1 then jumpPrimary (c - 1) else c - 1)).toNat
                (if ¬ is_trading_time (c - 1) ∧ 0 < c - 1 then jumpPrimary (c - 1) else c - 1)
                (c - 1) (by omega) (by omega) hstep.2
          rw [hwin, hskip]
          rfl
      · next hcond =>
          have hz : (c + 1 - max lo 0).toNat = 0 := by omega
          unfold pricesInWindow
          rw [hz]
          rfl

/-- Main correctness helper: when the current timestamp's time-of-day lies in
`[09:00:00, 12:00:00)`, the afternoon continuation cannot trigger and the
primary walk's jumps skip only non-trading instants, so `GetSMA` is exactly
the arithmetic mean of the resolved prices over the valid trading seconds in
the (epoch-clamped) trailing window. -/
theorem getSMA_eq_refSMA (ma : MovingAverage) (now : Int)
    (hc : ma.current_timestamp = some now)
    (h1 : 32400 ≤ secondsOfDay now) (h2 : secondsOfDay now < 43200) :
    ma.GetSMA = refSMA ma.data (current_price ma.data) (now - ma.window) now := by
  have h0 : ¬ now = 0 := by
    intro h
    subst h
    unfold secondsOfDay at h1
    omega
  have hInv : walkInv now := Or.inr (Or.inl ⟨h1, by omega⟩)
  have hlist := walk1List_correct ma.data (current_price ma.data) (now - ma.window)
    ((now + 1).toNat + 1) now (by omega) hInv
  have hmain := getSMA_eq_of_lists ma now _ hc h0 hlist
  have hhour : ¬ (12 ≤ hourOfDay now ∧
      ((pricesInWindow ma.data (current_price ma.data) (now - ma.window) now).length : Int)
        < ma.window) := by
    intro hcontra
    have h3 := hcontra.1
    unfold hourOfDay at h3
    unfold secondsOfDay at h3 h2
    omega
  rw [hmain.1 hhour]
  rfl

/-! ### C6: Scenario A -/

/-- C6: capacity 10, window 60, single `Update` at 2025-04-04 09:31:00 local
(timestamp `20182*86400 + 34260 = 1743759060`, a Friday morning) with price
100.0; `Get()` returns exactly 100.0 (only `09:31:00` itself resolves to a
positive price; every earlier second of the window predates the sample and
yields the excluded 0 sentinel — the mean of the one contributing second is
still 100.0). -/
theorem c6_scenario_a :
    ((MovingAverage.init 10 60).Update 1743759060 100).GetSMA = 100 := by
  rw [getSMA_eq_refSMA _ 1743759060 (by decide) (by decide) (by decide)]
  have hpw : pricesInWindow ((MovingAverage.init 10 60).Update 1743759060 100).data
      (current_price ((MovingAverage.init 10 60).Update 1743759060 100).data)
      (1743759060 - ((MovingAverage.init 10 60).Update 1743759060 100).window)
      1743759060 = [100] := by decide
  unfold refSMA
  rw [hpw]
  norm_num

/-! ### C1: Get() versus the windowed mean -/

/-- C1 counterexample: updates `(Fri 09:30:00, 100)` and `(Fri 13:00:30, 200)`
with window 60.  The trailing window `[13:29:30, 13:00:30]` contains 31
trading seconds (mean `3200/31`), but the afternoon continuation adds 29
out-of-window morning seconds at price 100, so `Get()` returns `6100/60`. -/
theorem c1_counterexample :
    (((MovingAverage.init 10 60).Update 1743759000 100).Update 1743771630 200).GetSMA ≠
      refSMA (((MovingAverage.init 10 60).Update 1743759000 100).Update 1743771630 200).data
        (current_price (((MovingAverage.init 10 60).Update 1743759000 100).Update 1743771630 200).data)
        (1743771630 - (((MovingAverage.init 10 60).Update 1743759000 100).Update 1743771630 200).window)
        1743771630 := by
  have h1 : walk1List (((MovingAverage.init 10 60).Update 1743759000 100).Update 1743771630 200).data
      (current_price (((MovingAverage.init 10 60).Update 1743759000 100).Update 1743771630 200).data)
      ((1743771630 : Int) - (((MovingAverage.init 10 60).Update 1743759000 100).Update 1743771630 200).window)
      (((1743771630 : Int) + 1).toNat + 1) 1743771630 = some (200 :: List.replicate 30 100) := by
    decide
  have hmain := getSMA_eq_of_lists
    (((MovingAverage.init 10 60).Update 1743759000 100).Update 1743771630 200)
    1743771630 (200 :: List.replicate 30 100) (by decide) (by decide) h1
  have h2 : walk2List (((MovingAverage.init 10 60).Update 1743759000 100).Update 1743771630 200).data
      (current_price (((MovingAverage.init 10 60).Update 1743759000 100).Update 1743771630 200).data)
      ((dayStart 1743771630 + 41400 + 1).toNat + 1) (dayStart 1743771630 + 41400)
      ((((MovingAverage.init 10 60).Update 1743759000 100).Update 1743771630 200).window
        - (200 :: List.replicate 30 100).length) = some (List.replicate 29 100) := by
    decide
  have hget := hmain.2 (List.replicate 29 100) (by refine ⟨by decide, by decide⟩) h2
  rw [hget]
  have hpw : pricesInWindow (((MovingAverage.init 10 60).Update 1743759000 100).Update 1743771630 200).data
      (current_price (((MovingAverage.init 10 60).Update 1743759000 100).Update 1743771630 200).data)
      (1743771630 - (((MovingAverage.init 10 60).Update 1743759000 100).Update 1743771630 200).window)
      1743771630 = 200 :: List.replicate 30 100 := by decide
  unfold refSMA
  rw [hpw]
  norm_num [List.sum_append, List.sum_cons, List.sum_replicate, List.length_append,
    List.length_replicate, nsmul_eq_mul]

/-- C1 amended: restricted to current timestamps whose time-of-day lies in
`[09:00, 12:00)` (so the `hour >= 12` continuation cannot add out-of-window
seconds, and the late-day jump anomalies are unreachable), `Get()` is exactly
the arithmetic mean of the forward-fill-resolved prices over the valid
trading seconds in the epoch-clamped trailing window, 0-sentinel seconds
excluded, and `0.0` when no second contributes. -/
theorem c1_amended (ma : MovingAverage) (now : Int)
    (hc : ma.current_timestamp = some now)
    (h1 : 32400 ≤ secondsOfDay now) (h2 : secondsOfDay now < 43200) :
    ma.GetSMA = refSMA ma.data (current_price ma.data) (now - ma.window) now :=
  getSMA_eq_refSMA ma now hc h1 h2

/-- C1 amended witness: the amended claim applied at the Scenario-A state. -/
theorem c1_amended_witness :
    ((MovingAverage.init 10 60).Update 1743759060 100).GetSMA =
      refSMA ((MovingAverage.init 10 60).Update 1743759060 100).data
        (current_price ((MovingAverage.init 10 60).Update 1743759060 100).data)
        (1743759060 - ((MovingAverage.init 10 60).Update 1743759060 100).window)
        1743759060 :=
  c1_amended ((MovingAverage.init 10 60).Update 1743759060 100) 1743759060
    (by decide) (by decide) (by decide)

/-! ### Week-shift equivariance (infrastructure for C5) -/

/-- Shift every stored timestamp by `Δ` seconds. -/
def shiftData (Δ : Int) (data : List (Int × ℚ)) : List (Int × ℚ) :=
  data.map (fun p => (p.1 + Δ, p.2))

theorem shiftData_nil (Δ : Int) : shiftData Δ [] = [] := rfl

theorem shiftData_cons (Δ : Int) (a : Int × ℚ) (l : List (Int × ℚ)) :
    shiftData Δ (a :: l) = (a.1 + Δ, a.2) :: shiftData Δ l := rfl

/-- The trading-calendar test is invariant under whole-week shifts. -/
theorem is_trading_time_shift (k t : Int) :
    is_trading_time (t + 604800 * k) = is_trading_time t := by
  cases hb : is_trading_time t
  · rw [is_trading_time_eq_false_iff] at hb ⊢
    unfold weekdayOfDay dayIndex secondsOfDay at *
    omega
  · rw [is_trading_time_iff] at hb ⊢
    unfold weekdayOfDay dayIndex secondsOfDay at *
    omega

/-- The exact-match pass is invariant under shifting data and query together. -/
theorem exactMatch_shift (Δ t : Int) :
    ∀ data : List (Int × ℚ), exactMatch (t + Δ) (shiftData Δ data) = exactMatch t data := by
  intro data
  induction data with
  | nil => rfl
  | cons hd tl ih =>
      obtain ⟨ts, price⟩ := hd
      rw [shiftData_cons]
      rw [exactMatch, exactMatch]
      rw [show (ts, price).1 + Δ - (t + Δ) = ts - t from by dsimp only; ring]
      split_ifs with h
      · rfl
      · exact ih

/-- The forward-fill scan is invariant under shifting data and query. -/
theorem scanPrev_shift (Δ t : Int) :
    ∀ (l : List (Int × ℚ)) (acc : Option ℚ),
      scanPrev (t + Δ) (shiftData Δ l) acc = scanPrev t l acc := by
  intro l
  induction l with
  | nil => intro acc; rfl
  | cons hd tl ih =>
      intro acc
      obtain ⟨ts, price⟩ := hd
      rw [shiftData_cons]
      rw [scanPrev, scanPrev]
      have hiff : (t + Δ < (ts, price).1 + Δ) ↔ (t < ts) := by dsimp only; omega
      split_ifs with h1 h2 h2
      · rfl
      · exact absurd (hiff.mp h1) h2
      · exact absurd (hiff.mpr h2) h1
      · exact ih (some price)

/-- Lexicographic insertion commutes with the shift. -/
theorem orderedInsert_shift (Δ : Int) (a : Int × ℚ) :
    ∀ l : List (Int × ℚ),
      List.orderedInsert (fun x y : Int × ℚ => x.1 < y.1 ∨ (x.1 = y.1 ∧ x.2 ≤ y.2))
        (a.1 + Δ, a.2) (shiftData Δ l)
      = shiftData Δ
        (List.orderedInsert (fun x y : Int × ℚ => x.1 < y.1 ∨ (x.1 = y.1 ∧ x.2 ≤ y.2)) a l) := by
  intro l
  induction l with
  | nil => rfl
  | cons b m ih =>
      rw [shiftData_cons, List.orderedInsert, List.orderedInsert]
      have hiff : ((a.1 + Δ, a.2).1 < (b.1 + Δ, b.2).1 ∨
          ((a.1 + Δ, a.2).1 = (b.1 + Δ, b.2).1 ∧ (a.1 + Δ, a.2).2 ≤ (b.1 + Δ, b.2).2))
          ↔ (a.1 < b.1 ∨ (a.1 = b.1 ∧ a.2 ≤ b.2)) := by
        dsimp only
        constructor
        · rintro (h | ⟨h1, h2⟩)
          · exact Or.inl (by omega)
          · exact Or.inr ⟨by omega, h2⟩
        · rintro (h | ⟨h1, h2⟩)
          · exact Or.inl (by omega)
          · exact Or.inr ⟨by omega, h2⟩
      split_ifs with h1 h2 h2
      · rw [shiftData_cons, shiftData_cons]
      · exact absurd (hiff.mp h1) h2
      · exact absurd (hiff.mpr h2) h1
      · rw [shiftData_cons, ih]

/-- The lexicographic sort commutes with the shift. -/
theorem sortedLex_shift (Δ : Int) :
    ∀ data : List (Int × ℚ), sortedLex (shiftData Δ data) = shiftData Δ (sortedLex data) := by
  intro data
  induction data with
  | nil => rfl
  | cons a l ih =>
      unfold sortedLex at *
      rw [shiftData_cons, List.insertionSort, List.insertionSort, ih]
      exact orderedInsert_shift Δ a (List.insertionSort _ l)

/-- Price resolution is invariant under shifting data and query together. -/
theorem find_price_shift (Δ : Int) (data : List (Int × ℚ)) (t : Int) (cp : ℚ) :
    find_price_at_time (shiftData Δ data) (t + Δ) cp = find_price_at_time data t cp := by
  unfold find_price_at_time
  by_cases hd : data = []
  · subst hd
    rfl
  · have hd' : shiftData Δ data ≠ [] := by
      unfold shiftData
      simpa using hd
    rw [if_neg hd, if_neg hd', exactMatch_shift]
    cases hm : exactMatch t data with
    | some p => rfl
    | none =>
        dsimp only
        rw [sortedLex_shift]
        cases hs : sortedLex data with
        | nil =>
            rw [shiftData_nil]
            simp only [ne_eq, not_true_eq_false, false_and, if_false]
            rfl
        | cons a rest =>
            rw [shiftData_cons]
            by_cases hcond : t < a.1
            · rw [if_pos ⟨by simp, by dsimp only [List.headD]; omega⟩,
                if_pos ⟨by simp, by simpa using hcond⟩]
            · rw [if_neg, if_neg]
              · rw [← shiftData_cons, scanPrev_shift]
              · intro hcontra
                exact hcond (by simpa using hcontra.2)
              · intro hcontra
                have := hcontra.2
                dsimp only [List.headD] at this
                exact hcond (by omega)

/-- Window contributions are invariant under whole-week shifts. -/
theorem tradingContrib_shift (k : Int) (data : List (Int × ℚ)) (cp : ℚ) (c : Int) :
    tradingContrib (shiftData (604800 * k) data) cp (c + 604800 * k) = tradingContrib data cp c := by
  unfold tradingContrib
  rw [is_trading_time_shift, find_price_shift]

/-- The contribution list of a backward range is invariant under whole-week
shifts. -/
theorem pricesRange_shift (k : Int) (data : List (Int × ℚ)) (cp : ℚ) :
    ∀ (n : Nat) (c : Int),
      pricesRange (shiftData (604800 * k) data) cp n (c + 604800 * k) = pricesRange data cp n c := by
  intro n
  induction n with
  | zero => intro c; rfl
  | succ m ih =>
      intro c
      rw [pricesRange, pricesRange, tradingContrib_shift]
      rw [show c + 604800 * k - 1 = (c - 1) + 604800 * k from by ring, ih]

/-- The reference SMA is invariant under whole-week shifts (for post-epoch
windows). -/
theorem refSMA_shift (k : Int) (data : List (Int × ℚ)) (cp : ℚ) (lo hi : Int)
    (h1 : 0 ≤ lo) (h2 : 0 ≤ lo + 604800 * k) :
    refSMA (shiftData (604800 * k) data) cp (lo + 604800 * k) (hi + 604800 * k) =
      refSMA data cp lo hi := by
  unfold refSMA pricesInWindow
  rw [show (hi + 604800 * k + 1 - max (lo + 604800 * k) 0).toNat
      = (hi + 1 - max lo 0).toNat from by omega]
  rw [pricesRange_shift]

/-! ### C5: Scenario B on an arbitrary weekday -/

/-- `Update` without overflow just appends. -/
theorem update_no_downsample (ma : MovingAverage) (t : Int) (v : ℚ)
    (h : (ma.data ++ [(t, v)]).length ≤ ma.num_bin) :
    ma.Update t v = { ma with current_timestamp := some t, data := ma.data ++ [(t, v)] } := by
  unfold MovingAverage.Update
  dsimp only
  rw [if_neg (by omega)]

/-- C5 amended: for every capacity `>= 2` (both samples retained) and every
*post-epoch* weekday `d`, after `Update(d 09:30:00, 100)` and
`Update(d 09:30:05, 101)`, `Get()` with window 10 returns `(5*100 + 101)/6 =
601/6`: the five trading seconds `09:30:00 .. 09:30:04` resolve to 100,
`09:30:05` to 101, and no other second contributes. -/
theorem c5_amended (cap : Nat) (d : Int) (hcap : 2 ≤ cap) (hd0 : 0 ≤ d)
    (hwd : weekdayOfDay d < 5) :
    (((MovingAverage.init cap 10).Update (d * 86400 + 34200) 100).Update
      (d * 86400 + 34205) 101).GetSMA = 601 / 6 := by
  have h1 : (MovingAverage.init cap 10).Update (d * 86400 + 34200) 100
      = MovingAverage.mk cap 10 [(d * 86400 + 34200, 100)] (some (d * 86400 + 34200)) := by
    rw [update_no_downsample _ _ _ (by simp [MovingAverage.init]; omega)]
    rfl
  have h2 : (MovingAverage.mk cap 10 [(d * 86400 + 34200, 100)]
        (some (d * 86400 + 34200))).Update (d * 86400 + 34205) 101
      = MovingAverage.mk cap 10 [(d * 86400 + 34200, 100), (d * 86400 + 34205, 101)]
          (some (d * 86400 + 34205)) := by
    rw [update_no_downsample _ _ _ (by simp; omega)]
    rfl
  rw [h1, h2]
  rw [getSMA_eq_refSMA _ (d * 86400 + 34205) rfl
    (by unfold secondsOfDay; omega) (by unfold secondsOfDay; omega)]
  show refSMA [(d * 86400 + 34200, 100), (d * 86400 + 34205, 101)]
      (current_price [(d * 86400 + 34200, 100), (d * 86400 + 34205, 101)])
      (d * 86400 + 34205 - 10) (d * 86400 + 34205) = 601 / 6
  rw [show current_price [(d * 86400 + 34200, (100 : ℚ)), (d * 86400 + 34205, 101)] = 101
    from rfl]
  rw [show d * 86400 + 34205 - 10 = d % 7 * 86400 + 34195 + 604800 * (d / 7) from by omega]
  rw [show d * 86400 + 34200 = d % 7 * 86400 + 34200 + 604800 * (d / 7) from by omega]
  rw [show d * 86400 + 34205 = d % 7 * 86400 + 34205 + 604800 * (d / 7) from by omega]
  rw [show [(d % 7 * 86400 + 34200 + 604800 * (d / 7), (100 : ℚ)),
        (d % 7 * 86400 + 34205 + 604800 * (d / 7), 101)]
      = shiftData (604800 * (d / 7))
          [(d % 7 * 86400 + 34200, 100), (d % 7 * 86400 + 34205, 101)] from rfl]
  rw [refSMA_shift (d / 7) _ 101 (d % 7 * 86400 + 34195) (d % 7 * 86400 + 34205)
    (by omega) (by omega)]
  have hr5 : d % 7 = 0 ∨ d % 7 = 1 ∨ d % 7 = 4 ∨ d % 7 = 5 ∨ d % 7 = 6 := by
    unfold weekdayOfDay at hwd
    omega
  rcases hr5 with h | h | h | h | h
  · rw [h]
    unfold refSMA
    dsimp only
    rw [show pricesInWindow [(((0 : Int)) * 86400 + 34200, (100 : ℚ)), (0 * 86400 + 34205, 101)]
        101 (0 * 86400 + 34195) (0 * 86400 + 34205)
      = [101, 100, 100, 100, 100, 100] from by decide]
    norm_num [List.sum_cons, List.sum_nil]
  · rw [h]
    unfold refSMA
    dsimp only
    rw [show pricesInWindow [(((1 : Int)) * 86400 + 34200, (100 : ℚ)), (1 * 86400 + 34205, 101)]
        101 (1 * 86400 + 34195) (1 * 86400 + 34205)
      = [101, 100, 100, 100, 100, 100] from by decide]
    norm_num [List.sum_cons, List.sum_nil]
  · rw [h]
    unfold refSMA
    dsimp only
    rw [show pricesInWindow [(((4 : Int)) * 86400 + 34200, (100 : ℚ)), (4 * 86400 + 34205, 101)]
        101 (4 * 86400 + 34195) (4 * 86400 + 34205)
      = [101, 100, 100, 100, 100, 100] from by decide]
    norm_num [List.sum_cons, List.sum_nil]
  · rw [h]
    unfold refSMA
    dsimp only
    rw [show pricesInWindow [(((5 : Int)) * 86400 + 34200, (100 : ℚ)), (5 * 86400 + 34205, 101)]
        101 (5 * 86400 + 34195) (5 * 86400 + 34205)
      = [101, 100, 100, 100, 100, 100] from by decide]
    norm_num [List.sum_cons, List.sum_nil]
  · rw [h]
    unfold refSMA
    dsimp only
    rw [show pricesInWindow [(((6 : Int)) * 86400 + 34200, (100 : ℚ)), (6 * 86400 + 34205, 101)]
        101 (6 * 86400 + 34195) (6 * 86400 + 34205)
      = [101, 100, 100, 100, 100, 100] from by decide]
    norm_num [List.sum_cons, List.sum_nil]

/-- C5 counterexample to the unrestricted claim: day `-3` (1969-12-29) is a
Monday, i.e. a weekday, with `-3*86400 + 34200 = -225000`; but both cursor
positions are negative, the walk's `check_time >= 0` guard exits immediately,
and `Get()` returns `0`, not `601/6`. -/
theorem c5_counterexample :
    weekdayOfDay (dayIndex (-225000)) < 5 ∧
    (((MovingAverage.init 10 10).Update (-225000) 100).Update (-224995) 101).GetSMA = 0 ∧
    (0 : ℚ) ≠ 601 / 6 := by
  refine ⟨by decide, by decide, by norm_num⟩

/-- C5 amended witness: the amended claim at `d = 20182` (Friday 2025-04-04)
with capacity 10. -/
theorem c5_amended_witness :
    (((MovingAverage.init 10 10).Update (20182 * 86400 + 34200) 100).Update
      (20182 * 86400 + 34205) 101).GetSMA = 601 / 6 :=
  c5_amended 10 20182 (by decide) (by decide) (by decide)

/-! ### C8: the skip-ahead jump rules -/

/-- C8: at a positive non-trading cursor `t`, the walk applies `jumpPrimary`;
hour in `[11, 13)` targets that day's `11:30:00`, hour `< 9` or `>= 15`
targets the previous trading day's `15:00:00` (and that target really is the
closest earlier weekday's close: weekday, strictly earlier, with only weekend
days in between, matching the repeated day decrement), no other region jumps,
and a jump is taken only when the target is strictly below the cursor. -/
theorem c8_jump_rules (t : Int) (hpos : 0 < t) (hnt : is_trading_time t = false) :
    ((if ¬ is_trading_time t ∧ 0 < t then jumpPrimary t else t) = jumpPrimary t) ∧
    (11 ≤ hourOfDay t ∧ hourOfDay t < 13 →
      jumpPrimary t = if dayStart t + 41400 < t then dayStart t + 41400 else t) ∧
    (¬ (11 ≤ hourOfDay t ∧ hourOfDay t < 13) → (hourOfDay t < 9 ∨ 15 ≤ hourOfDay t) →
      jumpPrimary t = if prevTradingDayClose (dayIndex t) < t
        then prevTradingDayClose (dayIndex t) else t) ∧
    (¬ (11 ≤ hourOfDay t ∧ hourOfDay t < 13) → ¬ (hourOfDay t < 9 ∨ 15 ≤ hourOfDay t) →
      jumpPrimary t = t) ∧
    (∃ d' : Int, prevTradingDayClose (dayIndex t) = d' * 86400 + 54000 ∧
      weekdayOfDay d' < 5 ∧ d' < dayIndex t ∧
      ∀ e : Int, d' < e → e < dayIndex t → 5 ≤ weekdayOfDay e) := by
  refine ⟨?_, ?_, ?_, ?_, ?_⟩
  · rw [if_pos ⟨by simp [hnt], hpos⟩]
  · intro h
    unfold jumpPrimary
    dsimp only
    rw [if_pos h]
  · intro h1 h2
    unfold jumpPrimary
    dsimp only
    rw [if_neg h1, if_pos h2]
  · intro h1 h2
    unfold jumpPrimary
    dsimp only
    rw [if_neg h1, if_neg h2]
  · refine ⟨skipWeekendsBack (dayIndex t - 1), rfl, ?_, ?_, ?_⟩
    · unfold skipWeekendsBack weekdayOfDay
      split_ifs <;> omega
    · unfold skipWeekendsBack weekdayOfDay
      split_ifs <;> omega
    · intro e he1 he2
      unfold skipWeekendsBack weekdayOfDay at *
      split_ifs at he1 <;> omega

/-- C8 witness: the midday rule at Friday 2025-04-04 12:00:00. -/
theorem c8_jump_rules_witness :
    jumpPrimary 1743768000 =
      if dayStart 1743768000 + 41400 < 1743768000 then dayStart 1743768000 + 41400
      else 1743768000 :=
  (c8_jump_rules 1743768000 (by decide) (by decide)).2.1 ⟨by decide, by decide⟩
